import Mathlib

/-!
Shallow embedding of `funnel.py` (funnels repository): the two-pointer
start/end sequence matcher, the per-user metrics aggregation fold, the
histogram, the rate computations and the cumulative-frequency median
estimator.

Timestamps are Python arbitrary-precision integers, embedded as `Int`.
The per-user event series lookup `event_series[user_id][event]` either
returns a list or raises `KeyError`; a user is therefore embedded as a
pair of `Option (List Int)` (`none` = the user id or the event name is
absent from the index, which the code catches as `KeyError`).
-/

/-- A user's two looked-up series: the series for `start_event` and the
series for `end_event`, each `none` when `event_series[user_id][event]`
would raise `KeyError`. -/
abbrev UserSeries := Option (List Int) × Option (List Int)

/-- Embedding of the peek condition of `funnel.py` line 109:
`lhs_peek and lhs_peek <= rhs_value and rhs_value - lhs_peek <= gap`,
applied to the tail of the current lhs suffix (line 108 sets `lhs_peek`
to `lhs[lhs_cursor + 1]` when in range, else `None`).  Python truthiness
makes both `None` and the integer `0` fail the first conjunct, hence the
`p ≠ 0` condition. -/
def lhsPeekOk (gap e : Int) : List Int → Bool
  | [] => false
  | p :: _ => decide (p ≠ 0 ∧ p ≤ e ∧ e - p ≤ gap)

/-- Embedding of the while loop of `funnel.py` lines 102-120, returning the
accepted `(lhs_value, rhs_value)` pairs in acceptance order.  The cursors
are represented by the remaining suffixes of `lhs` and `rhs`.  Every
iteration advances exactly one cursor by one, so the loop performs fewer
than `|lhs| + |rhs|` iterations; the `fuel` argument is that bound and is
never exhausted when `matchPairs` supplies it. -/
def matchStep (gap : Int) : Nat → List Int → List Int → List (Int × Int)
  | 0, _, _ => []
  | _ + 1, [], _ => []
  | _ + 1, _ :: _, [] => []
  | fuel + 1, s :: ls, e :: rs =>
    if s ≤ e then
      if e - s ≤ gap then
        if lhsPeekOk gap e ls then
          matchStep gap fuel ls (e :: rs)
        else
          (s, e) :: matchStep gap fuel (s :: ls) rs
      else
        matchStep gap fuel ls (e :: rs)
    else
      matchStep gap fuel (s :: ls) rs

/-- The accepted pairs of the matcher loop for one user, `funnel.py`
lines 98-120. -/
def matchPairs (gap : Int) (lhs rhs : List Int) : List (Int × Int) :=
  matchStep gap (lhs.length + rhs.length) lhs rhs

/-- Embedding of `hist[d] += 1` (`funnel.py` line 115): increment the
bucket at index `d`.  Out of range the Python code would raise
`IndexError`; that situation is unreachable in `query` (the index is the
latency `e - s ∈ [0, gap]` of an accepted pair and the histogram has
`gap + 1` buckets), and this embedding leaves the list unchanged there. -/
def listIncr : List Nat → Nat → List Nat
  | [], _ => []
  | x :: xs, 0 => (x + 1) :: xs
  | x :: xs, d + 1 => x :: listIncr xs d

/-- The accumulation state of `query` (`funnel.py` lines 80-85): the
loop-local counters `start_count`, `end_count`, `start_es`, `end_es`,
`sequences`, `arrival_total` and the list `hist`. -/
structure QState where
  start_count : Nat
  end_count : Nat
  start_es : Nat
  end_es : Nat
  sequences : Nat
  arrival_total : Int
  hist : List Nat
  deriving DecidableEq

/-- One iteration of the per-user loop of `query` (`funnel.py` lines
87-122).  The three cases mirror the `try`/`except KeyError: continue`
block: a missing start series aborts before `start_count += 1`; a missing
end series aborts after it; with both series present the matcher loop
runs and its per-acceptance updates (`sequences += 1`, `found = True`,
`arrival_total += e - s`, `hist[e - s] += 1`, lines 112-116) are folded
over the accepted pairs in acceptance order, followed by
`if found: end_count += 1` (lines 121-122, `found` being true exactly
when at least one pair was accepted). -/
def processUser (gap : Int) (st : QState) (u : UserSeries) : QState :=
  match u with
  | (none, _) => st
  | (some _, none) => { st with start_count := st.start_count + 1 }
  | (some lhs, some rhs) =>
    let pairs := matchPairs gap lhs rhs
    { start_count := st.start_count + 1
      end_count := st.end_count + (if pairs.isEmpty then 0 else 1)
      start_es := st.start_es + lhs.length
      end_es := st.end_es + rhs.length
      sequences := st.sequences + pairs.length
      arrival_total := st.arrival_total + (pairs.map (fun p => p.2 - p.1)).sum
      hist := pairs.foldl (fun h p => listIncr h (p.2 - p.1).toNat) st.hist }

/-- The initial accumulation state of `query` (`funnel.py` lines 80-85);
`hist = [0]*(gap+1)` has `gap + 1` buckets (and `[0]*n` is empty for
`n ≤ 0`, matching `Int.toNat`). -/
def initState (gap : Int) : QState :=
  { start_count := 0, end_count := 0, start_es := 0, end_es := 0,
    sequences := 0, arrival_total := 0,
    hist := List.replicate (gap + 1).toNat 0 }

/-- The aggregate state after the per-user loop of `query` has processed
every user (`funnel.py` lines 87-122). -/
def queryFold (gap : Int) (users : List UserSeries) : QState :=
  users.foldl (processUser gap) (initState gap)

/-- The inner loop of `median_from_freq_table` (`funnel.py` lines
140-143).  The Python guard is `cume_total < midpoint` with
`midpoint = total / 2` (exact halving of an integer); over integers this
is equivalent to `2 * cume_total < total`, the form used here.  When the
guard holds with the table exhausted Python would raise `IndexError`;
that is unreachable from `median_from_freq_table` (by then
`cume_total = total`), and this embedding returns `cume_i` there. -/
def medianGo (total : Nat) : Nat → Nat → List Nat → Nat
  | _, cume_i, [] => cume_i
  | cume_total, cume_i, b :: bs =>
    if 2 * cume_total < total then medianGo total (cume_total + b) (cume_i + 1) bs
    else cume_i

/-- Embedding of `median_from_freq_table` (`funnel.py` lines 137-144). -/
def median_from_freq_table (freq_table : List Nat) : Nat :=
  medianGo freq_table.sum 0 0 freq_table

/-- The errors the reference `query` can raise while reporting.  The
code contains no validation, so only `ZeroDivisionError` (from the rate
computations, `funnel.py` lines 131-134) is ever produced;
`invalidParameter` names the error the spec demands for `gap < 0` and is
produced nowhere in the embedded code. -/
inductive QueryError
  | zeroDivision
  | invalidParameter
  deriving DecidableEq

/-- The report fields printed by `query` (`funnel.py` lines 128-135).
Python float divisions are embedded as exact rational divisions; only
their definedness matters for the claims. -/
structure FunnelReport where
  events_scanned : Nat
  start_count : Nat
  end_count : Nat
  complete_rate : Rat
  total_completes : Nat
  completes_per_user : Rat
  average_arrival : Rat
  median_arrival : Nat
  deriving DecidableEq

/-- The reporting tail of `query` (`funnel.py` lines 128-135) on a final
aggregate state.  The three `if`s mirror, in program order, the three
divisions that raise `ZeroDivisionError` when their denominator is zero:
`end_count * 100.0 / start_count` (line 131), `sequences * 1.0 /
end_count` (line 133) and `arrival_total / sequences` (line 134). -/
def buildReport (st : QState) : Except QueryError FunnelReport :=
  if st.start_count = 0 then Except.error QueryError.zeroDivision
  else if st.end_count = 0 then Except.error QueryError.zeroDivision
  else if st.sequences = 0 then Except.error QueryError.zeroDivision
  else Except.ok
    { events_scanned := st.start_es + st.end_es
      start_count := st.start_count
      end_count := st.end_count
      complete_rate := (st.end_count * 100 : Rat) / st.start_count
      total_completes := st.sequences
      completes_per_user := (st.sequences : Rat) / st.end_count
      average_arrival := (st.arrival_total : Rat) / st.sequences
      median_arrival := median_from_freq_table st.hist }

/-- Embedding of `query` (`funnel.py` lines 78-135): fold every user, then
report. -/
def query (gap : Int) (users : List UserSeries) : Except QueryError FunnelReport :=
  buildReport (queryFold gap users)

/-- Modelled from the spec: the lookahead condition of step 3a of §4.2,
"peek the next start `s' = S[i+1]` if it exists.  If `s'` also satisfies
`s' ≤ e` and `e - s' ≤ gap` ... advance".  Unlike `lhsPeekOk` it has no
`p ≠ 0` clause: the spec's condition is pure existence, the code's Python
truthiness test additionally fails on the timestamp `0`. -/
def specLhsPeekOk (gap e : Int) : List Int → Bool
  | [] => false
  | p :: _ => decide (p ≤ e ∧ e - p ≤ gap)

/-- Modelled from the spec: the matcher loop of §4.2 with the step 3a
lookahead, identical to `matchStep` except for using `specLhsPeekOk`. -/
def specMatchStep (gap : Int) : Nat → List Int → List Int → List (Int × Int)
  | 0, _, _ => []
  | _ + 1, [], _ => []
  | _ + 1, _ :: _, [] => []
  | fuel + 1, s :: ls, e :: rs =>
    if s ≤ e then
      if e - s ≤ gap then
        if specLhsPeekOk gap e ls then
          specMatchStep gap fuel ls (e :: rs)
        else
          (s, e) :: specMatchStep gap fuel (s :: ls) rs
      else
        specMatchStep gap fuel ls (e :: rs)
    else
      specMatchStep gap fuel (s :: ls) rs

/-- Modelled from the spec: the accepted pairs of the §4.2 matcher. -/
def specMatchPairs (gap : Int) (lhs rhs : List Int) : List (Int × Int) :=
  specMatchStep gap (lhs.length + rhs.length) lhs rhs

/-- Modelled from the spec: `events_scanned += |S| + |E|` for every user
(§4.3), an absent series counting as empty. -/
def specEventsScanned (users : List UserSeries) : Nat :=
  (users.map (fun u => (u.1.getD []).length + (u.2.getD []).length)).sum

/-- The contribution of one user to the final value of a histogram bucket:
the number of accepted pairs of that user whose latency is `d`. -/
def histContrib (gap : Int) (d : Nat) : UserSeries → Nat
  | (some lhs, some rhs) => (matchPairs gap lhs rhs).countP (fun p => (p.2 - p.1).toNat == d)
  | _ => 0

/-- The contribution of one user to `start_es + end_es`: `|S| + |E|` when
both series are present, `0` otherwise (the `except KeyError: continue`
skips lines 95-96 whenever either lookup fails). -/
def scannedContrib : UserSeries → Nat
  | (some lhs, some rhs) => lhs.length + rhs.length
  | _ => 0

/-- Element-wise merge of two aggregate states: sum of every counter and
element-wise sum of the histograms. -/
def mergeQ (a b : QState) : QState :=
  { start_count := a.start_count + b.start_count
    end_count := a.end_count + b.end_count
    start_es := a.start_es + b.start_es
    end_es := a.end_es + b.end_es
    sequences := a.sequences + b.sequences
    arrival_total := a.arrival_total + b.arrival_total
    hist := List.zipWith (· + ·) a.hist b.hist }








lemma matchStep_valid (gap : Int) :
    ∀ (fuel : Nat) (ls rs : List Int), ∀ p ∈ matchStep gap fuel ls rs,
      p.1 ≤ p.2 ∧ p.2 - p.1 ≤ gap := by
  intro fuel
  induction fuel with
  | zero => intro ls rs p hp; simp [matchStep] at hp
  | succ n ih =>
    intro ls rs p hp
    rcases ls with _ | ⟨s, ls'⟩
    · simp [matchStep] at hp
    rcases rs with _ | ⟨e, rs'⟩
    · simp [matchStep] at hp
    simp only [matchStep] at hp
    split at hp
    case isTrue hse =>
      split at hp
      case isTrue hgap' =>
        split at hp
        case isTrue hpk => exact ih _ _ p hp
        case isFalse hpk =>
          rcases List.mem_cons.mp hp with rfl | hmem
          · exact ⟨hse, hgap'⟩
          · exact ih _ _ p hmem
      case isFalse hgap' => exact ih _ _ p hp
    case isFalse hse => exact ih _ _ p hp

lemma matchStep_closest (gap : Int) :
    ∀ (fuel : Nat) (ls rs : List Int), List.Sorted (· ≤ ·) ls → (∀ x ∈ ls, x ≠ 0) →
      ∀ p ∈ matchStep gap fuel ls rs,
        p.1 ∈ ls ∧ ∀ x ∈ ls, x ≤ p.2 → p.2 - x ≤ gap → x ≤ p.1 := by
  intro fuel
  induction fuel with
  | zero => intro ls rs _ _ p hp; simp [matchStep] at hp
  | succ n ih =>
    intro ls rs hsort hz p hp
    rcases ls with _ | ⟨s, ls'⟩
    · simp [matchStep] at hp
    rcases rs with _ | ⟨e, rs'⟩
    · simp [matchStep] at hp
    rw [List.sorted_cons] at hsort
    have hz' : ∀ x ∈ ls', x ≠ 0 := fun x hx => hz x (List.mem_cons_of_mem _ hx)
    simp only [matchStep] at hp
    split at hp
    case isTrue hse =>
      split at hp
      case isTrue hgap' =>
        split at hp
        case isTrue hpk =>
          obtain ⟨h1, h2⟩ := ih ls' (e :: rs') hsort.2 hz' p hp
          refine ⟨List.mem_cons_of_mem _ h1, ?_⟩
          intro x hx hxe hxg
          rcases List.mem_cons.mp hx with rfl | hx'
          · exact hsort.1 _ h1
          · exact h2 x hx' hxe hxg
        case isFalse hpk =>
          rcases List.mem_cons.mp hp with rfl | hmem
          · refine ⟨List.mem_cons_self _ _, ?_⟩
            intro x hx hxe hxg
            rcases List.mem_cons.mp hx with rfl | hx'
            · exact le_refl _
            · exfalso
              rcases ls' with _ | ⟨pk, tl⟩
              · simp at hx'
              · have hpk0 : pk ≠ 0 := hz' pk (List.mem_cons_self _ _)
                have hspk : s ≤ pk := hsort.1 pk (List.mem_cons_self _ _)
                have hneg : ¬ (pk ≠ 0 ∧ pk ≤ e ∧ e - pk ≤ gap) := by
                  simpa [lhsPeekOk] using hpk
                have hpke : ¬ pk ≤ e := by
                  intro hle
                  have hse' : s ≤ e := hse
                  exact hneg ⟨hpk0, hle, by omega⟩
                have hpx : pk ≤ x := by
                  rcases List.mem_cons.mp hx' with rfl | hxtl
                  · exact le_refl _
                  · exact (List.sorted_cons.mp hsort.2).1 x hxtl
                have hxe' : x ≤ e := hxe
                omega
          · exact ih (s :: ls') rs' (List.sorted_cons.mpr hsort) hz p hmem
      case isFalse hgap' =>
        obtain ⟨h1, h2⟩ := ih ls' (e :: rs') hsort.2 hz' p hp
        refine ⟨List.mem_cons_of_mem _ h1, ?_⟩
        intro x hx hxe hxg
        rcases List.mem_cons.mp hx with rfl | hx'
        · exact hsort.1 _ h1
        · exact h2 x hx' hxe hxg
    case isFalse hse =>
      exact ih (s :: ls') rs' (List.sorted_cons.mpr hsort) hz p hp

/-- Supporting result: on start series that avoid the timestamp `0` (which
Python truthiness conflates with `None` in the line-109 peek), the matcher
does bind every accepted end to the latest qualifying start. -/
theorem matchPairs_closest_of_nonzero (gap : Int) (S E : List Int)
    (hS : List.Sorted (· ≤ ·) S) (hz : ∀ x ∈ S, x ≠ 0)
    (p : Int × Int) (hp : p ∈ matchPairs gap S E) :
    p.1 ∈ S ∧ p.1 ≤ p.2 ∧ p.2 - p.1 ≤ gap ∧
      ∀ x ∈ S, x ≤ p.2 → p.2 - x ≤ gap → x ≤ p.1 := by
  obtain ⟨h1, h2⟩ := matchStep_closest gap _ S E hS hz p hp
  obtain ⟨h3, h4⟩ := matchStep_valid gap _ S E p hp
  exact ⟨h1, h3, h4, h2⟩

lemma listIncr_length : ∀ (h : List Nat) (d : Nat), (listIncr h d).length = h.length := by
  intro h
  induction h with
  | nil => intro d; rfl
  | cons x xs ih =>
    intro d
    rcases d with _ | m
    · rfl
    · simp [listIncr, ih]

lemma listIncr_getD :
    ∀ (h : List Nat) (j : Nat), j < h.length → ∀ i : Nat,
      (listIncr h j).getD i 0 = h.getD i 0 + (if i = j then 1 else 0) := by
  intro h
  induction h with
  | nil => intro j hj; simp at hj
  | cons x xs ih =>
    intro j hj i
    rcases j with _ | m
    · rcases i with _ | k
      · simp [listIncr]
      · simp [listIncr]
    · rcases i with _ | k
      · simp [listIncr]
      · have hm : m < xs.length := by simpa using hj
        simp only [listIncr, List.getD_cons_succ]
        rw [ih m hm k]
        by_cases hk : k = m <;> simp [hk]

lemma foldl_listIncr_length (P : List (Int × Int)) :
    ∀ h : List Nat, (P.foldl (fun h p => listIncr h (p.2 - p.1).toNat) h).length = h.length := by
  induction P with
  | nil => intro h; rfl
  | cons q Q ih => intro h; rw [List.foldl_cons, ih, listIncr_length]

lemma foldl_listIncr_getD (d : Nat) :
    ∀ (P : List (Int × Int)) (h : List Nat),
      (∀ p ∈ P, (p.2 - p.1).toNat < h.length) →
      (P.foldl (fun h p => listIncr h (p.2 - p.1).toNat) h).getD d 0
        = h.getD d 0 + P.countP (fun p => (p.2 - p.1).toNat == d) := by
  intro P
  induction P with
  | nil => intro h _; simp
  | cons q Q ih =>
    intro h hin
    simp only [List.foldl_cons, List.countP_cons]
    rw [ih _ (fun p hp => by
      rw [listIncr_length]; exact hin p (List.mem_cons_of_mem _ hp))]
    rw [listIncr_getD h _ (hin q (List.mem_cons_self _ _)) d]
    by_cases hd : (q.2 - q.1).toNat = d
    · simp [hd]; omega
    · have : ¬ d = (q.2 - q.1).toNat := fun hh => hd hh.symm
      simp [hd, this]

lemma processUser_hist_length (gap : Int) (st : QState) (u : UserSeries) :
    (processUser gap st u).hist.length = st.hist.length := by
  obtain ⟨su, eu⟩ := u
  cases su <;> cases eu <;> simp [processUser, foldl_listIncr_length]

lemma queryFold_hist_length_aux (gap : Int) :
    ∀ (users : List UserSeries) (st : QState),
      (users.foldl (processUser gap) st).hist.length = st.hist.length := by
  intro users
  induction users with
  | nil => intro st; rfl
  | cons u us ih => intro st; rw [List.foldl_cons, ih, processUser_hist_length]

lemma queryFold_hist_length (gap : Int) (users : List UserSeries) :
    (queryFold gap users).hist.length = (gap + 1).toNat := by
  rw [queryFold, queryFold_hist_length_aux]
  simp [initState]

lemma queryFold_hist_getD (gap : Int) (hgap : 0 ≤ gap) (d : Nat) :
    ∀ (users : List UserSeries) (st : QState), st.hist.length = (gap + 1).toNat →
      (users.foldl (processUser gap) st).hist.getD d 0
        = st.hist.getD d 0 + (users.map (histContrib gap d)).sum := by
  intro users
  induction users with
  | nil => intro st _; simp
  | cons u us ih =>
    intro st hlen
    rw [List.foldl_cons, List.map_cons, List.sum_cons,
      ih _ (by rw [processUser_hist_length]; exact hlen)]
    obtain ⟨su, eu⟩ := u
    rcases su with _ | lhs
    · simp [processUser, histContrib]
    rcases eu with _ | rhs
    · simp [processUser, histContrib]
    have hin : ∀ p ∈ matchPairs gap lhs rhs, (p.2 - p.1).toNat < st.hist.length := by
      intro p hp
      obtain ⟨h1, h2⟩ := matchStep_valid gap _ lhs rhs p hp
      rw [hlen]
      omega
    simp only [processUser, histContrib]
    rw [foldl_listIncr_getD d _ _ hin]
    omega

/-- C1: the claim fails on the code.  With the sorted start series
`[0, 0, 5]`, end series `[5]` and `gap = 10`, the matcher accepts
`(0, 5)` — the Python truthiness test `if lhs_peek` (line 109) treats
the peeked timestamp `0` like `None` and skips the lookahead — although
the start `5` is in the series, qualifies for the end `5`
(`5 ≤ 5` and `5 - 5 ≤ 10`), and is strictly later than the bound start
`0`.  The spec-modelled matcher (`specMatchPairs`, whose lookahead is the
pure existence test of §4.2 step 3a) accepts `(5, 5)` on the same input,
as the claim demands. -/
theorem closest_start_failing_input :
    matchPairs 10 [0, 0, 5] [5] = [(0, 5)] ∧
    specMatchPairs 10 [0, 0, 5] [5] = [(5, 5)] ∧
    List.Sorted (· ≤ ·) [(0 : Int), 0, 5] ∧ List.Sorted (· ≤ ·) [(5 : Int)] ∧
    (0 : Int) ≤ 10 ∧
    ((5 : Int) ∈ [(0 : Int), 0, 5] ∧ (5 : Int) ≤ 5 ∧ (5 : Int) - 5 ≤ 10 ∧ ¬ ((5 : Int) ≤ 0)) := by
  refine ⟨by decide, by decide, ?_, ?_, by decide, by decide⟩
  · decide
  · decide

/-- C2: every pair accepted by the matcher satisfies `s ≤ e` and
`e - s ≤ gap`; the histogram bucket incremented for it, index
`(e - s).toNat`, lies inside the `gap + 1`-bucket histogram; the
histogram keeps exactly `gap + 1` buckets throughout the query; and the
final value of bucket `d` is exactly the number of accepted pairs of
latency `d` across all users. -/
theorem pair_validity (gap : Int) (S E : List Int)
    (hS : List.Sorted (· ≤ ·) S) (hE : List.Sorted (· ≤ ·) E) (hgap : 0 ≤ gap) :
    (∀ p ∈ matchPairs gap S E,
      p.1 ≤ p.2 ∧ p.2 - p.1 ≤ gap ∧ (p.2 - p.1).toNat < (gap + 1).toNat) ∧
    (∀ users : List UserSeries,
      (queryFold gap users).hist.length = (gap + 1).toNat ∧
      ∀ d : Nat, (queryFold gap users).hist.getD d 0
        = (users.map (histContrib gap d)).sum) := by
  constructor
  · intro p hp
    obtain ⟨h1, h2⟩ := matchStep_valid gap _ S E p hp
    exact ⟨h1, h2, by omega⟩
  · intro users
    refine ⟨queryFold_hist_length gap users, ?_⟩
    intro d
    rw [queryFold, queryFold_hist_getD gap hgap d users (initState gap) (by simp [initState])]
    simp [initState]

/-- Closed witness for `pair_validity` at `gap = 10`, `S = [10, 20]`,
`E = [25]`, the accepted pair `(20, 25)`, and a one-user query. -/
theorem pair_validity_witness :
    ((20 : Int) ≤ 25 ∧ (25 : Int) - 20 ≤ 10 ∧ ((25 : Int) - 20).toNat < ((10 : Int) + 1).toNat) ∧
    ((queryFold 10 [((some [10], some [15]) : UserSeries)]).hist.length = ((10 : Int) + 1).toNat ∧
      ∀ d : Nat, (queryFold 10 [((some [10], some [15]) : UserSeries)]).hist.getD d 0
        = ([((some [10], some [15]) : UserSeries)].map (histContrib 10 d)).sum) :=
  ⟨(pair_validity 10 [10, 20] [25] (by decide) (by decide) (by decide)).1 (20, 25) (by decide),
   (pair_validity 10 [10, 20] [25] (by decide) (by decide) (by decide)).2
     [((some [10], some [15]) : UserSeries)]⟩

/-- C3: accepting a pair advances only the end cursor, so the single start
`10` matches both ends `15` and `25` under `gap = 20`: the accepted pairs
are exactly `(10, 15)` and `(10, 25)`, contributing `2` to
`sequences` (total matches) and only `1` to `end_count` for that user. -/
theorem many_to_one_reuse :
    matchPairs 20 [10] [15, 25] = [(10, 15), (10, 25)] ∧
    (queryFold 20 [((some [10], some [15, 25]) : UserSeries)]).sequences = 2 ∧
    (queryFold 20 [((some [10], some [15, 25]) : UserSeries)]).end_count = 1 := by
  refine ⟨by decide, by decide, by decide⟩

lemma medianGo_total_zero (c i : Nat) (l : List Nat) : medianGo 0 c i l = i := by
  cases l <;> simp [medianGo]

lemma medianGo_single_bucket (T : Nat) (hT : 1 ≤ T) (t : List Nat) :
    ∀ (k i : Nat), medianGo T 0 i (List.replicate k 0 ++ T :: t) = i + k + 1 := by
  intro k
  induction k with
  | zero =>
    intro i
    simp only [List.replicate_zero, List.nil_append, medianGo]
    rw [if_pos (by omega)]
    cases t with
    | nil => simp [medianGo]
    | cons b bs =>
      simp only [medianGo]
      rw [if_neg (by omega)]
  | succ m ih =>
    intro i
    simp only [List.replicate_succ, List.cons_append, List.append_eq, medianGo]
    rw [if_pos (by omega)]
    simp only [Nat.add_zero]
    rw [ih (i + 1)]
    omega

/-- C4: on an all-empty histogram (total `T = 0`) the median estimator
returns `0`, and on a histogram whose whole mass `T ≥ 1` sits in the
single bucket `k` it returns `k + 1`, one greater than the zero-based
index of the crossing bucket. -/
theorem median_degenerate (freq : List Nat) (k T : Nat) (t : List Nat)
    (h0 : freq.sum = 0) (hT : 1 ≤ T) (ht : ∀ x ∈ t, x = 0) :
    median_from_freq_table freq = 0 ∧
    median_from_freq_table (List.replicate k 0 ++ T :: t) = k + 1 := by
  constructor
  · rw [median_from_freq_table, h0, medianGo_total_zero]
  · have h2 : t.sum = 0 := List.sum_eq_zero ht
    have hsum : (List.replicate k 0 ++ T :: t).sum = T := by
      rw [List.sum_append, List.sum_cons]
      have h1 : (List.replicate k 0).sum = 0 := by simp
      omega
    rw [median_from_freq_table, hsum]
    have h3 := medianGo_single_bucket T hT t k 0
    omega

/-- Closed witness for `median_degenerate`: the all-zero histogram
`[0, 0, 0]` yields `0`, and mass `5` alone in bucket `2` yields `3`. -/
theorem median_degenerate_witness :
    median_from_freq_table [0, 0, 0] = 0 ∧
    median_from_freq_table (List.replicate 2 0 ++ 5 :: []) = 2 + 1 :=
  median_degenerate [0, 0, 0] 2 5 [] (by decide) (by decide) (by decide)

lemma queryFold_scanned_aux (gap : Int) :
    ∀ (users : List UserSeries) (st : QState),
      (users.foldl (processUser gap) st).start_es + (users.foldl (processUser gap) st).end_es
        = st.start_es + st.end_es + (users.map scannedContrib).sum := by
  intro users
  induction users with
  | nil => intro st; simp
  | cons u us ih =>
    intro st
    rw [List.foldl_cons, List.map_cons, List.sum_cons, ih]
    obtain ⟨su, eu⟩ := u
    cases su <;> cases eu <;> simp [processUser, scannedContrib] <;> omega

/-- C5 (amended): `start_es + end_es` — the reported `events_scanned` — is
the sum, over the users whose start series and end series are BOTH
present, of `|S| + |E|`; a user for whom either lookup raises `KeyError`
contributes nothing, because the `except KeyError: continue`
(`funnel.py` lines 92-93) skips the `start_es += len(lhs)` /
`end_es += len(rhs)` statements (lines 95-96) for that user. -/
theorem events_scanned_totalization (gap : Int) (users : List UserSeries) :
    (queryFold gap users).start_es + (queryFold gap users).end_es
      = (users.map scannedContrib).sum := by
  rw [queryFold, queryFold_scanned_aux]
  simp [initState]

/-- C5 counterexample: a user with start series `[1]` and no end series
contributes `0` to `events_scanned` in the code, while the claim's total
(`specEventsScanned`, absent series counting as empty) gives `1`. -/
theorem events_scanned_cex :
    (queryFold 5 [((some [1], none) : UserSeries)]).start_es
      + (queryFold 5 [((some [1], none) : UserSeries)]).end_es = 0 ∧
    specEventsScanned [((some [1], none) : UserSeries)] = 1 := by
  refine ⟨by decide, by decide⟩

lemma queryFold_start_count_aux (gap : Int) :
    ∀ (users : List UserSeries) (st : QState),
      (users.foldl (processUser gap) st).start_count
        = st.start_count + users.countP (fun u => u.1.isSome) := by
  intro users
  induction users with
  | nil => intro st; simp
  | cons u us ih =>
    intro st
    rw [List.foldl_cons, List.countP_cons, ih]
    obtain ⟨su, eu⟩ := u
    cases su <;> cases eu <;> simp [processUser] <;> omega

/-- C6: `start_count` counts exactly the users whose start-event series is
present in the index — the increment at `funnel.py` line 90 sits between
the two lookups, so it happens whenever `event_series[user_id][start_event]`
succeeds, independently of whether the end-event series exists and of
whether any match occurs (presence of a series coincides with
non-emptiness, since ingestion creates a series only when appending a
timestamp to it). -/
theorem start_count_independence (gap : Int) (users : List UserSeries) :
    (queryFold gap users).start_count = users.countP (fun u => u.1.isSome) := by
  rw [queryFold, queryFold_start_count_aux]
  simp [initState]

/-- C7: with `gap = -1` and a user holding start series `[0]` and end
series `[0]`, the code performs no parameter validation at all: the query
runs, the matcher accepts nothing (the bound `e - s ≤ gap < 0` is
unsatisfiable), and the reporting stage fails with `ZeroDivisionError`
at `sequences * 1.0 / end_count` — not with the `InvalidParameterError`
the claim requires (no such error path exists in the code). -/
theorem negative_gap_behavior :
    query (-1) [((some [0], some [0]) : UserSeries)] = Except.error QueryError.zeroDivision ∧
    query (-1) [((some [0], some [0]) : UserSeries)] ≠ Except.error QueryError.invalidParameter ∧
    matchPairs (-1) [0] [0] = [] := by
  refine ⟨rfl, ?_, by decide⟩
  intro h
  have h2 : (Except.error QueryError.zeroDivision : Except QueryError FunnelReport)
      = Except.error QueryError.invalidParameter := h
  exact QueryError.noConfusion (Except.error.inj h2)

/-- C8: the reporting stage of `query` fails with a division error exactly
when one of the three rate denominators is zero — `start_count` (completion
rate), `end_count` (matches per completing user) or `sequences`
(mean latency) — and completes a report exactly when all three are
non-zero. -/
theorem zero_denominator_crash (gap : Int) (users : List UserSeries) :
    (query gap users = Except.error QueryError.zeroDivision ↔
      ((queryFold gap users).start_count = 0 ∨ (queryFold gap users).end_count = 0 ∨
        (queryFold gap users).sequences = 0)) ∧
    ((∃ r : FunnelReport, query gap users = Except.ok r) ↔
      ¬ ((queryFold gap users).start_count = 0 ∨ (queryFold gap users).end_count = 0 ∨
        (queryFold gap users).sequences = 0)) := by
  rw [query]
  set st := queryFold gap users with hst
  rw [buildReport]
  by_cases h1 : st.start_count = 0
  · simp [h1]
  · by_cases h2 : st.end_count = 0
    · simp [h1, h2]
    · by_cases h3 : st.sequences = 0
      · simp [h1, h2, h3]
      · simp [h1, h2, h3]

lemma processUser_end_le_start (gap : Int) (st : QState) (u : UserSeries)
    (h : st.end_count ≤ st.start_count) :
    (processUser gap st u).end_count ≤ (processUser gap st u).start_count := by
  obtain ⟨su, eu⟩ := u
  rcases su with _ | lhs
  · simpa [processUser] using h
  rcases eu with _ | rhs
  · simp [processUser]; omega
  simp only [processUser]
  split <;> simp <;> omega

/-- C10: after folding any list of users, `end_count ≤ start_count` — an
`end_count` increment (`funnel.py` line 122) happens only for a user whose
start series lookup succeeded, which already incremented `start_count`
(line 90) — so the reported completion rate never exceeds 100%. -/
theorem end_count_le_start_count (gap : Int) (users : List UserSeries) :
    (queryFold gap users).end_count ≤ (queryFold gap users).start_count := by
  rw [queryFold]
  have hstep : ∀ (l : List UserSeries) (st : QState), st.end_count ≤ st.start_count →
      (l.foldl (processUser gap) st).end_count ≤ (l.foldl (processUser gap) st).start_count := by
    intro l
    induction l with
    | nil => intro st h; exact h
    | cons u us ih => intro st h; exact ih _ (processUser_end_le_start gap st u h)
  exact hstep users (initState gap) (by simp [initState])

lemma listIncr_zip : ∀ (a : List Nat) (b : List Nat) (d : Nat),
    listIncr (List.zipWith (· + ·) a b) d = List.zipWith (· + ·) a (listIncr b d) := by
  intro a
  induction a with
  | nil => intro b d; simp [listIncr]
  | cons x xs ih =>
    intro b d
    rcases b with _ | ⟨y, ys⟩
    · simp [listIncr]
    rcases d with _ | m
    · simp [listIncr, Nat.add_assoc]
    · simp only [List.zipWith_cons_cons, listIncr]
      rw [ih]

lemma foldl_listIncr_zip (P : List (Int × Int)) : ∀ (a b : List Nat),
    P.foldl (fun h p => listIncr h (p.2 - p.1).toNat) (List.zipWith (· + ·) a b)
      = List.zipWith (· + ·) a (P.foldl (fun h p => listIncr h (p.2 - p.1).toNat) b) := by
  induction P with
  | nil => intro a b; rfl
  | cons q Q ih =>
    intro a b
    simp only [List.foldl_cons]
    rw [listIncr_zip, ih]

lemma listIncr_comm : ∀ (h : List Nat) (a b : Nat),
    listIncr (listIncr h a) b = listIncr (listIncr h b) a := by
  intro h
  induction h with
  | nil => intro a b; rfl
  | cons x xs ih =>
    intro a b
    rcases a with _ | m <;> rcases b with _ | n <;> simp [listIncr]
    rw [ih]

lemma foldl_listIncr_after (P : List (Int × Int)) : ∀ (h : List Nat) (d : Nat),
    P.foldl (fun h p => listIncr h (p.2 - p.1).toNat) (listIncr h d)
      = listIncr (P.foldl (fun h p => listIncr h (p.2 - p.1).toNat) h) d := by
  induction P with
  | nil => intro h d; rfl
  | cons q Q ih =>
    intro h d
    simp only [List.foldl_cons]
    rw [listIncr_comm, ih]

lemma foldl_listIncr_comm (P Q : List (Int × Int)) : ∀ h : List Nat,
    Q.foldl (fun h p => listIncr h (p.2 - p.1).toNat)
        (P.foldl (fun h p => listIncr h (p.2 - p.1).toNat) h)
      = P.foldl (fun h p => listIncr h (p.2 - p.1).toNat)
          (Q.foldl (fun h p => listIncr h (p.2 - p.1).toNat) h) := by
  induction Q with
  | nil => intro h; rfl
  | cons q Q ih =>
    intro h
    simp only [List.foldl_cons]
    rw [← foldl_listIncr_after P h, ih]

lemma processUser_mergeQ (gap : Int) (s t : QState) (u : UserSeries) :
    processUser gap (mergeQ s t) u = mergeQ s (processUser gap t u) := by
  obtain ⟨su, eu⟩ := u
  rcases su with _ | lhs
  · rfl
  rcases eu with _ | rhs
  · dsimp only [processUser, mergeQ]
    congr 1
  dsimp only [processUser, mergeQ]
  congr 1
  all_goals first
    | omega
    | exact foldl_listIncr_zip (matchPairs gap lhs rhs) s.hist t.hist

lemma foldl_processUser_mergeQ (gap : Int) (l : List UserSeries) :
    ∀ (s t : QState),
      l.foldl (processUser gap) (mergeQ s t) = mergeQ s (l.foldl (processUser gap) t) := by
  induction l with
  | nil => intro s t; rfl
  | cons u us ih =>
    intro s t
    simp only [List.foldl_cons]
    rw [processUser_mergeQ, ih]

lemma processUser_comm (gap : Int) (st : QState) (u v : UserSeries) :
    processUser gap (processUser gap st u) v = processUser gap (processUser gap st v) u := by
  obtain ⟨su, eu⟩ := u
  obtain ⟨sv, ev⟩ := v
  rcases su with _ | lu <;> rcases eu with _ | ru <;> rcases sv with _ | lv <;>
    rcases ev with _ | rv <;> try rfl
  dsimp only [processUser]
  congr 1
  all_goals first
    | omega
    | exact foldl_listIncr_comm (matchPairs gap lu ru) (matchPairs gap lv rv) st.hist

lemma foldl_processUser_perm (gap : Int) {l₁ l₂ : List UserSeries} (hp : l₁.Perm l₂) :
    ∀ st : QState, l₁.foldl (processUser gap) st = l₂.foldl (processUser gap) st := by
  induction hp with
  | nil => intro st; rfl
  | cons x _ ih =>
    intro st
    simp only [List.foldl_cons]
    exact ih _
  | swap x y l =>
    intro st
    simp only [List.foldl_cons]
    rw [processUser_comm]
  | trans _ _ ih₁ ih₂ =>
    intro st
    rw [ih₁, ih₂]

lemma zipWith_add_replicate_right : ∀ h : List Nat,
    List.zipWith (· + ·) h (List.replicate h.length 0) = h := by
  intro h
  induction h with
  | nil => rfl
  | cons x xs ih => simp only [List.length_cons, List.replicate_succ,
      List.zipWith_cons_cons, Nat.add_zero, ih]

lemma mergeQ_initState_right (gap : Int) (st : QState)
    (hl : st.hist.length = (gap + 1).toNat) :
    mergeQ st (initState gap) = st := by
  obtain ⟨a, b, c, d, e, f, h⟩ := st
  have hl' : h.length = (gap + 1).toNat := hl
  dsimp only [mergeQ, initState]
  rw [← hl']
  congr 1
  all_goals first
    | omega
    | exact zipWith_add_replicate_right h

lemma foldl_mergeQ_parts (gap : Int) :
    ∀ (parts : List (List UserSeries)) (s : QState), s.hist.length = (gap + 1).toNat →
      (parts.map (queryFold gap)).foldl mergeQ s = parts.flatten.foldl (processUser gap) s := by
  intro parts
  induction parts with
  | nil => intro s _; rfl
  | cons p ps ih =>
    intro s hs
    simp only [List.map_cons, List.foldl_cons, List.flatten_cons, List.foldl_append]
    have h1 : mergeQ s (queryFold gap p) = p.foldl (processUser gap) s := by
      rw [queryFold, ← foldl_processUser_mergeQ gap p s (initState gap),
        mergeQ_initState_right gap s hs]
    rw [h1, ih _ ((queryFold_hist_length_aux gap p s).trans hs)]

/-- C9: for every partition of the user list into sublists (any interleaved
split, expressed as `parts.flatten` being a permutation of `users`),
running the per-user fold on each part independently from a fresh
all-zero aggregate and then merging the partial aggregates — summing
every counter and element-wise summing the `gap + 1`-bucket histograms —
yields exactly the aggregate of folding the full user list sequentially.
All folded updates are commutative additions, so the split is
irrelevant. -/
theorem aggregation_partition_merge (gap : Int) (parts : List (List UserSeries))
    (users : List UserSeries) (h : parts.flatten.Perm users) :
    (parts.map (queryFold gap)).foldl mergeQ (initState gap) = queryFold gap users := by
  rw [foldl_mergeQ_parts gap parts (initState gap) (by simp [initState])]
  rw [queryFold]
  exact foldl_processUser_perm gap h (initState gap)

/-- Closed witness for `aggregation_partition_merge`: a two-part split of a
two-user population, merged, equals the sequential aggregate. -/
theorem aggregation_partition_merge_witness :
    ([[((some [10], some [15, 25]) : UserSeries)], [((none, some [7]) : UserSeries)]].map
        (queryFold 20)).foldl mergeQ (initState 20)
      = queryFold 20 [((some [10], some [15, 25]) : UserSeries),
          ((none, some [7]) : UserSeries)] :=
  aggregation_partition_merge 20
    [[((some [10], some [15, 25]) : UserSeries)], [((none, some [7]) : UserSeries)]]
    [((some [10], some [15, 25]) : UserSeries), ((none, some [7]) : UserSeries)]
    (List.Perm.refl _)
